import Mathlib

/-!
# Verification of the cphf CHD perfect-hash construction

Shallow embedding of the `cphf` crate (`src/lib.rs`) together with a model of
its generator/container modules, and theorems settling the specification
claims about hash-value decomposition, the displacement arithmetic, the
ordering on hash values, and the build/lookup pipeline.

Machine integers are embedded as `Nat` with explicit reduction modulo
`2 ^ 32` (`U32`) where the Rust code uses wrapping `u32` arithmetic.
-/

namespace Cphf

/-- `2 ^ 32`, the modulus of wrapping `u32` arithmetic. -/
def U32 : Nat := 4294967296

/-- Embeds the `HashValue` struct from `src/lib.rs`: a hash result broken
down into the parts `g`, `f1`, `f2` (each a `u32`, embedded as `Nat`). -/
structure HashValue where
  g : Nat
  f1 : Nat
  f2 : Nat
deriving DecidableEq, Repr, Inhabited

namespace HashValue

/-- `HashValue::new`: the all-zero hash value. -/
def new : HashValue := { f1 := 0, f2 := 0, g := 0 }

/-- Well-formedness: each field fits in a `u32`, as the Rust types guarantee. -/
def wf (a : HashValue) : Prop := a.g < 2 ^ 32 ∧ a.f1 < 2 ^ 32 ∧ a.f2 < 2 ^ 32

instance (a : HashValue) : Decidable a.wf := by unfold wf; infer_instance

/-- Embeds `HashValue::finalize`.  The external SipHash `Hash128` result is
taken as its two 64-bit halves `lower` (`h1`) and `upper` (`h2`); the Rust
`as u32` casts become reduction modulo `2 ^ 32` and `>> 32` becomes `>>> 32`. -/
def finalize (lower upper : Nat) : HashValue :=
  { g := (lower >>> 32) % U32
  , f1 := lower % U32
  , f2 := upper % U32 }

/-- Embeds `HashValue::eq`: field-wise equality of the three parts. -/
def eq (a b : HashValue) : Bool :=
  a.g == b.g && a.f1 == b.f1 && a.f2 == b.f2

/-- Embeds `HashValue::gt`: both values are packed into a `u128` as
`(g << 64) | (f1 << 32) | f2` and the packings are compared.  The fields are
`u32`, so the packed value is below `2 ^ 96` and the `u128` arithmetic is
exact; the packing is embedded verbatim with `Nat` shifts and `Nat.lor`. -/
def gt (a b : HashValue) : Bool :=
  let lhs := a.g <<< 64 ||| a.f1 <<< 32 ||| a.f2
  let rhs := b.g <<< 64 ||| b.f1 <<< 32 ||| b.f2
  decide (lhs > rhs)

end HashValue

/-- The spec's 96-bit total order key for a `HashValue`:
`g * 2 ^ 64 + f1 * 2 ^ 32 + f2`.  Written from the spec's words, to be
compared against the source's `HashValue::gt`. -/
def specOrder96 (a : HashValue) : Nat :=
  a.g * 2 ^ 64 + a.f1 * 2 ^ 32 + a.f2

/-- Embeds the free function `displace` from `src/lib.rs`:
`d2.wrapping_add(f1.wrapping_mul(d1)).wrapping_add(f2)` on `u32`. -/
def displace (f1 f2 d1 d2 : Nat) : Nat :=
  ((d2 + f1 * d1 % U32) % U32 + f2) % U32

/-! ## Model of the generator and container modules

The crate's `generator`, `containers`, `keys`, `macros` and `rand` modules
are declared in `src/lib.rs` but their files are not part of the available
sources, so the construction pipeline and the lookup structure are modelled
from the specification (§3, §4, §6, §7).  The hash engine stays abstract: a
function `hash : κ → Nat → HashValue` from key and seed, used identically at
build and lookup time. -/

/-- Modelled from the spec: the two build errors of the missing generator
module — `DuplicateKey` for equal input keys and `ConstructionExhausted`
when every retry attempt fails. -/
inductive BuildError where
  | DuplicateKey
  | ConstructionExhausted
deriving DecidableEq, Repr

/-- Modelled from the spec: the immutable `OrderedMap` artifact of the
missing containers module — entries in insertion order, the construction
seed, bucket count `B`, table length `T`, the displacement table (one
`(d1, d2)` pair per bucket), and the slot table mapping each slot to the
index of the entry occupying it. -/
structure OrderedMap (κ ν : Type) where
  entries : List (κ × ν)
  seed : Nat
  B : Nat
  T : Nat
  disp : List (Nat × Nat)
  slots : List (Option Nat)
deriving DecidableEq, Repr

/-- Modelled from the spec: the default `table_size_policy` of the missing
generator module — the smallest power of two at least `n` (and at least 1),
computed by doubling with a structural fuel bound. -/
def tableSizeGo (n : Nat) : Nat → Nat → Nat
  | 0, acc => acc
  | fuel + 1, acc => if n ≤ acc then acc else tableSizeGo n fuel (2 * acc)

/-- Modelled from the spec: default table size `T` for `n` entries. -/
def tableSize (n : Nat) : Nat := tableSizeGo n n 1

/-- Modelled from the spec: bucket count `B` for `n` entries — `n` divided
by a small constant bucket-size target (4), and at least 1. -/
def bucketCount (n : Nat) : Nat := max 1 ((n + 3) / 4)

/-- Modelled from the spec: duplicate-key pre-pass of the missing generator
module — does the key list contain two equal keys? -/
def hasDup [DecidableEq κ] : List κ → Bool
  | [] => false
  | k :: ks => ks.contains k || hasDup ks

/-- The hash values of all entries under one seed. -/
def hvsOf (hash : κ → Nat → HashValue) (seed : Nat) (entries : List (κ × ν)) :
    List HashValue :=
  entries.map fun e => hash e.1 seed

/-- The hash value of entry `i` (the all-zero value out of range). -/
def entryHV (hvs : List HashValue) (i : Nat) : HashValue :=
  (hvs[i]?).getD HashValue.new

/-- Modelled from the spec: first-level bucket id of entry `i`, `g mod B`. -/
def bucketOf (hvs : List HashValue) (B i : Nat) : Nat :=
  (entryHV hvs i).g % B

/-- Modelled from the spec: the members of bucket `b`, in insertion order
(stable grouping of entry indices by bucket id). -/
def bucketMembers (hvs : List HashValue) (B b : Nat) : List Nat :=
  (List.range hvs.length).filter fun i => bucketOf hvs B i == b

/-- Insertion into a list sorted by the boolean relation `le`. -/
def insertBy (le : α → α → Bool) (a : α) : List α → List α
  | [] => [a]
  | b :: bs => if le a b then a :: b :: bs else b :: insertBy le a bs

/-- Insertion sort by the boolean relation `le`. -/
def sortBy (le : α → α → Bool) : List α → List α
  | [] => []
  | a :: as => insertBy le a (sortBy le as)

/-- Modelled from the spec: bucket processing order — descending size, ties
broken by ascending bucket id. -/
def bucketLE (hvs : List HashValue) (B b1 b2 : Nat) : Bool :=
  let s1 := (bucketMembers hvs B b1).length
  let s2 := (bucketMembers hvs B b2).length
  decide (s2 < s1) || (decide (s1 = s2) && decide (b1 ≤ b2))

/-- Modelled from the spec: the deterministic bucket processing order. -/
def bucketOrder (hvs : List HashValue) (B : Nat) : List Nat :=
  sortBy (bucketLE hvs B) (List.range B)

/-- Occupancy lookup in the slot table (out of range reads as free). -/
def lookupSlot (slots : List (Option Nat)) (s : Nat) : Option Nat :=
  (slots[s]?).getD none

/-- Modelled from the spec: the solver's scratch state — the slot occupancy
table of length `T` and the displacement table of length `B`. -/
structure SolveState where
  slots : List (Option Nat)
  disp : List (Nat × Nat)
deriving DecidableEq, Repr

/-- The slot a single member lands in under candidate `(d1, d2)`. -/
def memberSlot (hvs : List HashValue) (T d1 d2 i : Nat) : Nat :=
  displace (entryHV hvs i).f1 (entryHV hvs i).f2 d1 d2 % T

/-- All members' slots under candidate `(d1, d2)`. -/
def bucketSlots (hvs : List HashValue) (T d1 d2 : Nat) (ms : List Nat) :
    List Nat :=
  ms.map (memberSlot hvs T d1 d2)

/-- Are all values of the list pairwise distinct? -/
def listDistinct : List Nat → Bool
  | [] => true
  | s :: rest => !(rest.contains s) && listDistinct rest

/-- Modelled from the spec: candidate acceptance — every member slot is
currently unoccupied and the member slots are pairwise distinct. -/
def candOk (slots : List (Option Nat)) (ss : List Nat) : Bool :=
  ss.all (fun s => (lookupSlot slots s).isNone) && listDistinct ss

/-- Modelled from the spec: the deterministic bounded candidate space —
pairs `(d1, d2)` with both components below `T`, in lexicographic order. -/
def candidates (T : Nat) : List (Nat × Nat) :=
  (List.range (T * T)).map fun i => (i / T, i % T)

/-- Modelled from the spec: mark the listed `(entry index, slot)` pairs as
occupied in the slot table. -/
def markSlots (slots : List (Option Nat)) : List (Nat × Nat) → List (Option Nat)
  | [] => slots
  | (i, s) :: rest => markSlots (slots.set s (some i)) rest

/-- Modelled from the spec: place one bucket — search the candidate space
for an accepted displacement pair, then record it and occupy the slots. -/
def placeBucket (hvs : List HashValue) (T : Nat) (st : SolveState) (b : Nat)
    (ms : List Nat) : Option SolveState :=
  match (candidates T).find? (fun p => candOk st.slots (bucketSlots hvs T p.1 p.2 ms)) with
  | none => none
  | some (d1, d2) =>
    some { slots := markSlots st.slots (ms.map fun i => (i, memberSlot hvs T d1 d2 i))
         , disp := st.disp.set b (d1, d2) }

/-- Modelled from the spec: the displacement solver — process the buckets in
planner order, abandoning the whole attempt on the first bucket failure. -/
def solveBuckets (hvs : List HashValue) (B T : Nat) :
    List Nat → SolveState → Option SolveState
  | [], st => some st
  | b :: bs, st =>
    match placeBucket hvs T st b (bucketMembers hvs B b) with
    | none => none
    | some st1 => solveBuckets hvs B T bs st1

/-- Modelled from the spec: one construction attempt under one seed — hash
all entries, plan the buckets, run the solver, and on success freeze the
result into the immutable container. -/
def attempt (hash : κ → Nat → HashValue) (B T seed : Nat)
    (entries : List (κ × ν)) : Option (OrderedMap κ ν) :=
  match solveBuckets (hvsOf hash seed entries) B T
      (bucketOrder (hvsOf hash seed entries) B)
      { slots := List.replicate T none, disp := List.replicate B (0, 0) } with
  | none => none
  | some st =>
    some { entries := entries, seed := seed, B := B, T := T
         , disp := st.disp, slots := st.slots }

/-- Modelled from the spec: the retry controller — each attempt `t` uses the
seed `seed + t` from the deterministic seed sequence; exhausting the
attempt budget yields `ConstructionExhausted`. -/
def tryBuild (hash : κ → Nat → HashValue) (B T : Nat)
    (entries : List (κ × ν)) (seed : Nat) :
    Nat → Nat → Except BuildError (OrderedMap κ ν)
  | _, 0 => .error .ConstructionExhausted
  | t, fuel + 1 =>
    match attempt hash B T (seed + t) entries with
    | some m => .ok m
    | none => tryBuild hash B T entries seed (t + 1) fuel

/-- Modelled from the spec: the whole construction — a duplicate-key
pre-pass before any bucketing, then the bounded retry loop with `B` and `T`
derived from the entry count. -/
def build [DecidableEq κ] (hash : κ → Nat → HashValue)
    (maxAttempts seed : Nat) (entries : List (κ × ν)) :
    Except BuildError (OrderedMap κ ν) :=
  if hasDup (entries.map Prod.fst) then .error .DuplicateKey
  else
    tryBuild hash (bucketCount entries.length) (tableSize entries.length)
      entries seed 0 maxAttempts

/-- Modelled from the spec: the slot probed for a query key — bucket
`g mod B`, that bucket's displacement pair, then
`displace(f1, f2, d1, d2) mod T`. -/
def OrderedMap.slotFor (hash : κ → Nat → HashValue) (m : OrderedMap κ ν)
    (k : κ) : Nat :=
  let hv := hash k m.seed
  let p := (m.disp[hv.g % m.B]?).getD (0, 0)
  displace hv.f1 hv.f2 p.1 p.2 % m.T

/-- Modelled from the spec: `get` — probe the computed slot; an unoccupied
slot answers absent, an occupied one is confirmed by full key equality. -/
def OrderedMap.get [DecidableEq κ] (hash : κ → Nat → HashValue)
    (m : OrderedMap κ ν) (k : κ) : Option ν :=
  match lookupSlot m.slots (m.slotFor hash k) with
  | none => none
  | some i =>
    match m.entries[i]? with
    | none => none
    | some (ki, vi) => if ki = k then some vi else none

/-- Modelled from the spec: iteration yields the stored entries in their
original insertion order. -/
def OrderedMap.toList (m : OrderedMap κ ν) : List (κ × ν) := m.entries

/-- Modelled from the spec: the container's length. -/
def OrderedMap.length (m : OrderedMap κ ν) : Nat := m.entries.length

/-- The slot entry `i` lands in under a displacement table `disp`: its
bucket's pair `(d1, d2)` fed into `displace` and reduced mod `T`. -/
def slotIn (hvs : List HashValue) (B T : Nat) (disp : List (Nat × Nat))
    (i : Nat) : Nat :=
  memberSlot hvs T ((disp[bucketOf hvs B i]?).getD (0, 0)).1
    ((disp[bucketOf hvs B i]?).getD (0, 0)).2 i

/-- The solver invariant, relative to the set `P` of already-processed
buckets: the tables have their nominal lengths, every occupied slot holds
the index of an entry of a processed bucket that the current displacement
table sends exactly there (`sound`), and every entry of a processed bucket
occupies its computed slot (`complete`). -/
structure Good (hvs : List HashValue) (B T : Nat) (P : Nat → Prop)
    (st : SolveState) : Prop where
  slotsLen : st.slots.length = T
  dispLen : st.disp.length = B
  sound : ∀ s i, lookupSlot st.slots s = some i →
    i < hvs.length ∧ P (bucketOf hvs B i) ∧ slotIn hvs B T st.disp i = s
  complete : ∀ i, i < hvs.length → P (bucketOf hvs B i) →
    lookupSlot st.slots (slotIn hvs B T st.disp i) = some i

/-- A concrete hash engine for the witnesses below: all three fragments are
the key reduced mod `2 ^ 32`. -/
def demoHash (k : Nat) (_s : Nat) : HashValue :=
  { g := k % U32, f1 := k % U32, f2 := k % U32 }

/-- Concrete two-entry input for the witnesses. -/
def demoEntries : List (Nat × Nat) := [(1, 11), (2, 22)]

/-- The container `build demoHash 1 0 demoEntries` produces. -/
def demoMap : OrderedMap Nat Nat :=
  { entries := [(1, 11), (2, 22)], seed := 0, B := 1, T := 2
  , disp := [(0, 0)], slots := [some 1, some 0] }

theorem U32_eq : U32 = 2 ^ 32 := by norm_num [U32]

/-! ## Packing lemmas for `HashValue.gt` -/

theorem shiftLeft_lor_eq_add (a c n : Nat) (h : c < 2 ^ n) :
    a <<< n ||| c = a * 2 ^ n + c := by
  rw [Nat.shiftLeft_eq, Nat.mul_comm a (2 ^ n), ← Nat.mul_add_lt_is_or h a,
    Nat.mul_comm (2 ^ n) a]

theorem pack_eq_specOrder96 (a : HashValue) (ha : a.wf) :
    a.g <<< 64 ||| a.f1 <<< 32 ||| a.f2 = specOrder96 a := by
  obtain ⟨hg, hf1, hf2⟩ := ha
  rw [Nat.lor_assoc, shiftLeft_lor_eq_add a.f1 a.f2 32 hf2]
  rw [shiftLeft_lor_eq_add]
  · unfold specOrder96; ring
  · have h1 : a.f1 * 2 ^ 32 + a.f2 < 2 ^ 32 * 2 ^ 32 := by
      have : a.f1 * 2 ^ 32 + 2 ^ 32 ≤ 2 ^ 32 * 2 ^ 32 := by
        have := Nat.succ_le_of_lt hf1
        calc a.f1 * 2 ^ 32 + 2 ^ 32 = (a.f1 + 1) * 2 ^ 32 := by ring
        _ ≤ 2 ^ 32 * 2 ^ 32 := Nat.mul_le_mul_right _ this
      omega
    calc a.f1 * 2 ^ 32 + a.f2 < 2 ^ 32 * 2 ^ 32 := h1
    _ = 2 ^ 64 := by norm_num

theorem gt_iff_specOrder96 (a b : HashValue) (ha : a.wf) (hb : b.wf) :
    HashValue.gt a b = true ↔ specOrder96 a > specOrder96 b := by
  unfold HashValue.gt
  rw [pack_eq_specOrder96 a ha, pack_eq_specOrder96 b hb]
  simp

/-! ## Claim C6: decomposition performed by `HashValue.finalize` -/

/-- **C6.** For a 128-bit hash result with low half `lower` and high half
`upper` (each a `u64`), `HashValue.finalize` sets `g` to bits 32–63 of
`lower` (that is, `lower >> 32`, which fits in 32 bits), `f1` to bits 0–31
of `lower`, and `f2` to the low 32 bits of `upper` — stated both
arithmetically and bit-by-bit via `Nat.testBit`. -/
theorem finalize_decomposition (lower upper : Nat) (hl : lower < 2 ^ 64) :
    ((HashValue.finalize lower upper).g = lower / 2 ^ 32 ∧
      ∀ i, ((HashValue.finalize lower upper).g).testBit i =
        (decide (i < 32) && lower.testBit (32 + i))) ∧
    ((HashValue.finalize lower upper).f1 = lower % 2 ^ 32 ∧
      ∀ i, ((HashValue.finalize lower upper).f1).testBit i =
        (decide (i < 32) && lower.testBit i)) ∧
    ((HashValue.finalize lower upper).f2 = upper % 2 ^ 32 ∧
      ∀ i, ((HashValue.finalize lower upper).f2).testBit i =
        (decide (i < 32) && upper.testBit i)) := by
  have hdiv : lower / 2 ^ 32 < 2 ^ 32 := by
    apply Nat.div_lt_of_lt_mul
    calc lower < 2 ^ 64 := hl
    _ = 2 ^ 32 * 2 ^ 32 := by norm_num
  refine ⟨⟨?_, ?_⟩, ⟨?_, ?_⟩, ?_, ?_⟩
  · show (lower >>> 32) % U32 = lower / 2 ^ 32
    rw [U32_eq, Nat.shiftRight_eq_div_pow, Nat.mod_eq_of_lt hdiv]
  · intro i
    show ((lower >>> 32) % U32).testBit i = _
    rw [U32_eq, Nat.testBit_mod_two_pow, Nat.testBit_shiftRight]
  · show lower % U32 = lower % 2 ^ 32
    rw [U32_eq]
  · intro i
    show (lower % U32).testBit i = _
    rw [U32_eq, Nat.testBit_mod_two_pow]
  · show upper % U32 = upper % 2 ^ 32
    rw [U32_eq]
  · intro i
    show (upper % U32).testBit i = _
    rw [U32_eq, Nat.testBit_mod_two_pow]

/-- Witness for C6 at `lower = 2 ^ 63 + 12345`, `upper = 7`. -/
theorem finalize_decomposition_witness :
    (((HashValue.finalize (2 ^ 63 + 12345) 7).g = (2 ^ 63 + 12345) / 2 ^ 32 ∧
      ∀ i, ((HashValue.finalize (2 ^ 63 + 12345) 7).g).testBit i =
        (decide (i < 32) && (2 ^ 63 + 12345).testBit (32 + i))) ∧
    ((HashValue.finalize (2 ^ 63 + 12345) 7).f1 = (2 ^ 63 + 12345) % 2 ^ 32 ∧
      ∀ i, ((HashValue.finalize (2 ^ 63 + 12345) 7).f1).testBit i =
        (decide (i < 32) && (2 ^ 63 + 12345).testBit i)) ∧
    ((HashValue.finalize (2 ^ 63 + 12345) 7).f2 = 7 % 2 ^ 32 ∧
      ∀ i, ((HashValue.finalize (2 ^ 63 + 12345) 7).f2).testBit i =
        (decide (i < 32) && (7 : Nat).testBit i))) :=
  finalize_decomposition (2 ^ 63 + 12345) 7 (by norm_num)

/-! ## Claim C7: `HashValue.gt` realizes the spec's 96-bit order -/

/-- **C7.** For well-formed hash values (`u32` fields), `HashValue.gt a b`
returns `true` exactly when the spec's 96-bit composite
`g * 2 ^ 64 + f1 * 2 ^ 32 + f2` of `a` strictly exceeds that of `b`. -/
theorem gt_realizes_96bit_order (a b : HashValue) (ha : a.wf) (hb : b.wf) :
    HashValue.gt a b = true ↔
      a.g * 2 ^ 64 + a.f1 * 2 ^ 32 + a.f2 > b.g * 2 ^ 64 + b.f1 * 2 ^ 32 + b.f2 :=
  gt_iff_specOrder96 a b ha hb

/-- Witness for C7 at two concrete well-formed hash values. -/
theorem gt_realizes_96bit_order_witness :
    (HashValue.gt ⟨3, 4, 5⟩ ⟨1, 2, 3⟩ = true ↔
      3 * 2 ^ 64 + 4 * 2 ^ 32 + 5 > 1 * 2 ^ 64 + 2 * 2 ^ 32 + 3) :=
  gt_realizes_96bit_order ⟨3, 4, 5⟩ ⟨1, 2, 3⟩ (by decide) (by decide)

/-! ## Claim C9: `eq`/`gt` consistency and strict total order -/

/-- **C9.** On well-formed hash values, `HashValue.eq` coincides with
equality of the 96-bit composites, exactly one of `eq a b`, `gt a b`,
`gt b a` holds, `gt` is irreflexive, and `gt` is transitive. -/
theorem eq_gt_strict_total_order (a b c : HashValue) (ha : a.wf) (hb : b.wf) :
    (HashValue.eq a b = true ↔ specOrder96 a = specOrder96 b) ∧
    ((HashValue.eq a b = true ∧ HashValue.gt a b = false ∧ HashValue.gt b a = false) ∨
     (HashValue.eq a b = false ∧ HashValue.gt a b = true ∧ HashValue.gt b a = false) ∨
     (HashValue.eq a b = false ∧ HashValue.gt a b = false ∧ HashValue.gt b a = true)) ∧
    HashValue.gt a a = false ∧
    (HashValue.gt a b = true → HashValue.gt b c = true → HashValue.gt a c = true) := by
  obtain ⟨hag, haf1, haf2⟩ := ha
  obtain ⟨hbg, hbf1, hbf2⟩ := hb
  have heq : HashValue.eq a b = true ↔ specOrder96 a = specOrder96 b := by
    unfold HashValue.eq specOrder96
    constructor
    · intro h
      simp only [Bool.and_eq_true, beq_iff_eq] at h
      obtain ⟨⟨h1, h2⟩, h3⟩ := h
      rw [h1, h2, h3]
    · intro h
      simp only [Bool.and_eq_true, beq_iff_eq]
      have e64 : (2 : Nat) ^ 64 = 18446744073709551616 := by norm_num
      have e32 : (2 : Nat) ^ 32 = 4294967296 := by norm_num
      rw [e64, e32] at h
      rw [e32] at hag haf1 haf2 hbg hbf1 hbf2
      refine ⟨⟨?_, ?_⟩, ?_⟩ <;> omega
  have hgt : HashValue.gt a b = true ↔ specOrder96 b < specOrder96 a :=
    gt_iff_specOrder96 a b ⟨hag, haf1, haf2⟩ ⟨hbg, hbf1, hbf2⟩
  have hgt' : HashValue.gt b a = true ↔ specOrder96 a < specOrder96 b :=
    gt_iff_specOrder96 b a ⟨hbg, hbf1, hbf2⟩ ⟨hag, haf1, haf2⟩
  refine ⟨heq, ?_, ?_, ?_⟩
  · rcases Nat.lt_trichotomy (specOrder96 a) (specOrder96 b) with h | h | h
    · right; right
      refine ⟨?_, ?_, hgt'.2 h⟩
      · rw [Bool.eq_false_iff]; intro hc; exact absurd (heq.1 hc) (by omega)
      · rw [Bool.eq_false_iff]; intro hc; exact absurd (hgt.1 hc) (by omega)
    · left
      refine ⟨heq.2 h, ?_, ?_⟩
      · rw [Bool.eq_false_iff]; intro hc; exact absurd (hgt.1 hc) (by omega)
      · rw [Bool.eq_false_iff]; intro hc; exact absurd (hgt'.1 hc) (by omega)
    · right; left
      refine ⟨?_, hgt.2 h, ?_⟩
      · rw [Bool.eq_false_iff]; intro hc; exact absurd (heq.1 hc) (by omega)
      · rw [Bool.eq_false_iff]; intro hc; exact absurd (hgt'.1 hc) (by omega)
  · unfold HashValue.gt
    simp
  · intro h1 h2
    unfold HashValue.gt at h1 h2 ⊢
    simp only [gt_iff_lt, decide_eq_true_eq] at h1 h2 ⊢
    exact lt_trans h2 h1

/-- Witness for C9 at three concrete well-formed hash values. -/
theorem eq_gt_strict_total_order_witness :
    ((HashValue.eq ⟨1, 2, 3⟩ ⟨0, 5, 6⟩ = true ↔
        specOrder96 ⟨1, 2, 3⟩ = specOrder96 ⟨0, 5, 6⟩) ∧
    ((HashValue.eq ⟨1, 2, 3⟩ ⟨0, 5, 6⟩ = true ∧
        HashValue.gt ⟨1, 2, 3⟩ ⟨0, 5, 6⟩ = false ∧
        HashValue.gt ⟨0, 5, 6⟩ ⟨1, 2, 3⟩ = false) ∨
     (HashValue.eq ⟨1, 2, 3⟩ ⟨0, 5, 6⟩ = false ∧
        HashValue.gt ⟨1, 2, 3⟩ ⟨0, 5, 6⟩ = true ∧
        HashValue.gt ⟨0, 5, 6⟩ ⟨1, 2, 3⟩ = false) ∨
     (HashValue.eq ⟨1, 2, 3⟩ ⟨0, 5, 6⟩ = false ∧
        HashValue.gt ⟨1, 2, 3⟩ ⟨0, 5, 6⟩ = false ∧
        HashValue.gt ⟨0, 5, 6⟩ ⟨1, 2, 3⟩ = true)) ∧
    HashValue.gt ⟨1, 2, 3⟩ ⟨1, 2, 3⟩ = false ∧
    (HashValue.gt ⟨1, 2, 3⟩ ⟨0, 5, 6⟩ = true →
      HashValue.gt ⟨0, 5, 6⟩ ⟨0, 0, 1⟩ = true →
      HashValue.gt ⟨1, 2, 3⟩ ⟨0, 0, 1⟩ = true)) :=
  eq_gt_strict_total_order ⟨1, 2, 3⟩ ⟨0, 5, 6⟩ ⟨0, 0, 1⟩ (by decide) (by decide)

/-! ## Claim C8: `displace` agrees with the spec's slot formula -/

/-- **C8.** `displace f1 f2 d1 d2` is the exact sum `d2 + f1 * d1 + f2`
reduced modulo `2 ^ 32`, and therefore for every table size `T > 0` dividing
`2 ^ 32` (in particular every power of two `T ≤ 2 ^ 32`), the code's slot
`displace f1 f2 d1 d2 % T` equals the spec's `(d2 + f1 * d1 + f2) % T`. -/
theorem displace_eq_spec_slot (f1 f2 d1 d2 T : Nat) (_hT : 0 < T)
    (hdvd : T ∣ 2 ^ 32) :
    displace f1 f2 d1 d2 = (d2 + f1 * d1 + f2) % 2 ^ 32 ∧
    displace f1 f2 d1 d2 % T = (d2 + f1 * d1 + f2) % T := by
  have h1 : displace f1 f2 d1 d2 = (d2 + f1 * d1 + f2) % 2 ^ 32 := by
    unfold displace
    rw [U32_eq]
    omega
  refine ⟨h1, ?_⟩
  rw [h1, Nat.mod_mod_of_dvd _ hdvd]

/-- Witness for C8 at concrete inputs with `T = 8`. -/
theorem displace_eq_spec_slot_witness :
    (displace 7 9 5 11 = (11 + 7 * 5 + 9) % 2 ^ 32 ∧
      displace 7 9 5 11 % 8 = (11 + 7 * 5 + 9) % 8) :=
  displace_eq_spec_slot 7 9 5 11 8 (by decide) (by decide)

/-! ## Claim C10: keys with `f1 = 0` are insensitive to `d1` -/

/-- **C10.** When the `f1` fragment is zero the displacement is independent
of `d1`: for all `f2`, `d2` and any `d1`, `d1'`, the slot value is the
wrapping sum `(d2 + f2) % 2 ^ 32`, so only `d2` can move such a key. -/
theorem displace_f1_zero_ignores_d1 (f2 d2 d1 d1' : Nat) :
    displace 0 f2 d1 d2 = displace 0 f2 d1' d2 ∧
    displace 0 f2 d1 d2 = (d2 + f2) % 2 ^ 32 := by
  unfold displace
  rw [U32_eq]
  constructor
  · simp
  · simp only [Nat.zero_mul, Nat.zero_mod, Nat.add_zero]
    omega

/-! ## Basic facts about the model -/

theorem hasDup_iff [DecidableEq κ] (l : List κ) :
    hasDup l = true ↔ ¬ l.Nodup := by
  induction l with
  | nil => simp [hasDup]
  | cons k ks ih =>
    simp only [hasDup, Bool.or_eq_true, List.nodup_cons]
    rw [ih]
    by_cases hk : k ∈ ks <;> simp [hk]

theorem tryBuild_ok (hash : κ → Nat → HashValue) (B T : Nat)
    (entries : List (κ × ν)) (seed : Nat) (t fuel : Nat)
    (m : OrderedMap κ ν)
    (h : tryBuild hash B T entries seed t fuel = .ok m) :
    ∃ s, attempt hash B T s entries = some m := by
  induction fuel generalizing t with
  | zero => simp [tryBuild] at h
  | succ n ih =>
    rw [tryBuild] at h
    rcases ha : attempt hash B T (seed + t) entries with _ | m1
    · rw [ha] at h
      exact ih (t + 1) h
    · rw [ha] at h
      simp only [Except.ok.injEq] at h
      exact ⟨seed + t, by rw [ha, h]⟩

theorem attempt_ok (hash : κ → Nat → HashValue) (B T s : Nat)
    (entries : List (κ × ν)) (m : OrderedMap κ ν)
    (h : attempt hash B T s entries = some m) :
    ∃ st, solveBuckets (hvsOf hash s entries) B T
        (bucketOrder (hvsOf hash s entries) B)
        { slots := List.replicate T none, disp := List.replicate B (0, 0) }
        = some st ∧
      m = { entries := entries, seed := s, B := B, T := T
          , disp := st.disp, slots := st.slots } := by
  unfold attempt at h
  split at h
  · exact absurd h (by simp)
  next st hs =>
    simp only [Option.some.injEq] at h
    exact ⟨st, hs, h.symm⟩

theorem build_ok [DecidableEq κ] (hash : κ → Nat → HashValue)
    (maxAttempts seed : Nat) (entries : List (κ × ν)) (m : OrderedMap κ ν)
    (h : build hash maxAttempts seed entries = .ok m) :
    hasDup (entries.map Prod.fst) = false ∧
    ∃ s st, solveBuckets (hvsOf hash s entries)
        (bucketCount entries.length) (tableSize entries.length)
        (bucketOrder (hvsOf hash s entries) (bucketCount entries.length))
        { slots := List.replicate (tableSize entries.length) none
        , disp := List.replicate (bucketCount entries.length) (0, 0) }
        = some st ∧
      m = { entries := entries, seed := s
          , B := bucketCount entries.length, T := tableSize entries.length
          , disp := st.disp, slots := st.slots } := by
  unfold build at h
  rcases hd : hasDup (entries.map Prod.fst) with _ | _
  · rw [hd] at h
    simp only [Bool.false_eq_true, if_false] at h
    obtain ⟨s, hs⟩ := tryBuild_ok _ _ _ _ _ _ _ _ h
    obtain ⟨st, hst, hm⟩ := attempt_ok _ _ _ _ _ _ hs
    exact ⟨rfl, s, st, hst, hm⟩
  · rw [hd] at h
    simp at h

theorem tableSizeGo_pos (n fuel acc : Nat) (h : 0 < acc) :
    0 < tableSizeGo n fuel acc := by
  induction fuel generalizing acc with
  | zero => simpa [tableSizeGo] using h
  | succ k ih =>
    rw [tableSizeGo]
    by_cases hna : n ≤ acc
    · simpa [hna] using h
    · simpa [hna] using ih (2 * acc) (by omega)

theorem tableSize_pos (n : Nat) : 0 < tableSize n :=
  tableSizeGo_pos n n 1 (by omega)

theorem bucketCount_pos (n : Nat) : 0 < bucketCount n := by
  unfold bucketCount; omega

/-! ## Claim C3: duplicate keys fail fast with `DuplicateKey` -/

/-- **C3.** Whenever the input contains two entries with equal keys,
construction fails with `DuplicateKey` — for every seed and every attempt
budget, so the failure is decided in the pre-pass, consumes no retry
attempt, and no container is produced. -/
theorem build_duplicate_key [DecidableEq κ] (hash : κ → Nat → HashValue)
    (maxAttempts seed : Nat) (entries : List (κ × ν))
    (hdup : ¬ (entries.map Prod.fst).Nodup) :
    build hash maxAttempts seed entries = .error .DuplicateKey := by
  unfold build
  rw [if_pos ((hasDup_iff (entries.map Prod.fst)).2 hdup)]

/-- Witness for C3: the spec's duplicate example `[1, 2, 1]` (as a map with
unit values) fails with `DuplicateKey` under an arbitrary hash, seed 0 and
five attempts. -/
theorem build_duplicate_key_witness :
    build (fun (_ : Nat) (_ : Nat) => HashValue.new) 5 0
        [(1, ()), (2, ()), (1, ())] = .error .DuplicateKey :=
  build_duplicate_key _ 5 0 _ (by decide)

/-! ## Claim C4: construction is deterministic -/

/-- **C4.** Two builds from the same input sequence, the same initial seed
and the same configuration yield identical artifacts: the same `B`, the same
`T`, the same chosen seed (hence the same hash values and the same bucket
processing order), the same displacement table and the same slot table. -/
theorem build_deterministic [DecidableEq κ] (hash : κ → Nat → HashValue)
    (maxAttempts seed : Nat) (entries : List (κ × ν))
    (m1 m2 : OrderedMap κ ν)
    (h1 : build hash maxAttempts seed entries = .ok m1)
    (h2 : build hash maxAttempts seed entries = .ok m2) :
    m1.B = m2.B ∧ m1.T = m2.T ∧ m1.seed = m2.seed ∧
    bucketOrder (hvsOf hash m1.seed entries) m1.B
      = bucketOrder (hvsOf hash m2.seed entries) m2.B ∧
    m1.disp = m2.disp ∧ m1.slots = m2.slots ∧ m1.entries = m2.entries := by
  rw [h1] at h2
  injection h2 with h
  subst h
  exact ⟨rfl, rfl, rfl, rfl, rfl, rfl, rfl⟩

/-! ## Claim C5: iteration order and length -/

/-- **C5.** A successfully built container stores exactly the input entries
in their original insertion order — iterating it yields the input list
itself (hence a finite, restartable iteration) — and its length equals the
number of input entries. -/
theorem build_preserves_order [DecidableEq κ] (hash : κ → Nat → HashValue)
    (maxAttempts seed : Nat) (entries : List (κ × ν)) (m : OrderedMap κ ν)
    (h : build hash maxAttempts seed entries = .ok m) :
    m.toList = entries ∧ m.length = entries.length := by
  obtain ⟨-, s, st, -, hm⟩ := build_ok hash maxAttempts seed entries m h
  subst hm
  exact ⟨rfl, rfl⟩

/-! ## Sorting, distinctness and slot-table helper lemmas -/

theorem insertBy_perm (le : α → α → Bool) (a : α) (l : List α) :
    List.Perm (insertBy le a l) (a :: l) := by
  induction l with
  | nil => exact List.Perm.refl _
  | cons b bs ih =>
    unfold insertBy
    by_cases hab : le a b
    · rw [if_pos hab]
    · rw [if_neg hab]
      exact (ih.cons b).trans (List.Perm.swap a b bs)

theorem sortBy_perm (le : α → α → Bool) (l : List α) :
    List.Perm (sortBy le l) l := by
  induction l with
  | nil => exact List.Perm.refl _
  | cons a as ih =>
    unfold sortBy
    exact (insertBy_perm le a (sortBy le as)).trans (ih.cons a)

theorem bucketOrder_perm (hvs : List HashValue) (B : Nat) :
    List.Perm (bucketOrder hvs B) (List.range B) :=
  sortBy_perm _ _

theorem bucketOrder_nodup (hvs : List HashValue) (B : Nat) :
    (bucketOrder hvs B).Nodup :=
  (bucketOrder_perm hvs B).nodup_iff.2 (List.nodup_range _)

theorem mem_bucketOrder (hvs : List HashValue) (B b : Nat) :
    b ∈ bucketOrder hvs B ↔ b < B := by
  rw [(bucketOrder_perm hvs B).mem_iff, List.mem_range]

theorem listDistinct_nodup (l : List Nat) (h : listDistinct l = true) :
    l.Nodup := by
  induction l with
  | nil => exact List.nodup_nil
  | cons s rest ih =>
    unfold listDistinct at h
    simp only [Bool.and_eq_true, Bool.not_eq_true'] at h
    rw [List.nodup_cons]
    refine ⟨?_, ih h.2⟩
    intro hmem
    rw [← List.elem_iff] at hmem
    rw [List.contains, hmem] at h
    exact Bool.false_ne_true h.1.symm

theorem mem_bucketMembers (hvs : List HashValue) (B b i : Nat) :
    i ∈ bucketMembers hvs B b ↔ i < hvs.length ∧ bucketOf hvs B i = b := by
  unfold bucketMembers
  rw [List.mem_filter, List.mem_range]
  simp

theorem markSlots_length (slots : List (Option Nat)) (ps : List (Nat × Nat)) :
    (markSlots slots ps).length = slots.length := by
  induction ps generalizing slots with
  | nil => rfl
  | cons p rest ih =>
    obtain ⟨i, s⟩ := p
    unfold markSlots
    rw [ih, List.length_set]

theorem markSlots_lookup_not_mem (slots : List (Option Nat))
    (ps : List (Nat × Nat)) (s : Nat) (h : s ∉ ps.map Prod.snd) :
    lookupSlot (markSlots slots ps) s = lookupSlot slots s := by
  induction ps generalizing slots with
  | nil => rfl
  | cons p rest ih =>
    obtain ⟨i0, s0⟩ := p
    simp only [List.map_cons, List.mem_cons, not_or] at h
    unfold markSlots
    rw [ih _ h.2]
    unfold lookupSlot
    rw [List.getElem?_set_ne (fun hc => h.1 hc.symm)]

theorem markSlots_lookup_mem (slots : List (Option Nat))
    (ps : List (Nat × Nat)) (i s : Nat)
    (hnd : (ps.map Prod.snd).Nodup) (hmem : (i, s) ∈ ps)
    (hs : s < slots.length) :
    lookupSlot (markSlots slots ps) s = some i := by
  induction ps generalizing slots with
  | nil => exact absurd hmem (List.not_mem_nil _)
  | cons p rest ih =>
    obtain ⟨i0, s0⟩ := p
    simp only [List.map_cons, List.nodup_cons] at hnd
    rcases List.mem_cons.1 hmem with hhead | htail
    · obtain ⟨rfl, rfl⟩ : i0 = i ∧ s0 = s := by
        injection hhead with h1 h2
        exact ⟨h1.symm, h2.symm⟩
      unfold markSlots
      rw [markSlots_lookup_not_mem _ _ _ hnd.1]
      unfold lookupSlot
      rw [List.getElem?_set_self hs]
      rfl
    · unfold markSlots
      exact ih (slots.set s0 (some i0)) hnd.2 htail
        (by rw [List.length_set]; exact hs)

theorem good_congr (hvs : List HashValue) (B T : Nat) (P Q : Nat → Prop)
    (st : SolveState) (hpq : ∀ x, P x ↔ Q x) (h : Good hvs B T P st) :
    Good hvs B T Q st := by
  refine ⟨h.slotsLen, h.dispLen, ?_, ?_⟩
  · intro s i hl
    obtain ⟨h1, h2, h3⟩ := h.sound s i hl
    exact ⟨h1, (hpq _).1 h2, h3⟩
  · intro i hi hq
    exact h.complete i hi ((hpq _).2 hq)

theorem good_init (hvs : List HashValue) (B T : Nat) :
    Good hvs B T (fun _ => False)
      { slots := List.replicate T none, disp := List.replicate B (0, 0) } := by
  refine ⟨List.length_replicate _ _, List.length_replicate _ _, ?_, ?_⟩
  · intro s i hl
    exfalso
    unfold lookupSlot at hl
    rw [List.getElem?_replicate] at hl
    by_cases hsT : s < T
    · rw [if_pos hsT] at hl
      simp at hl
    · rw [if_neg hsT] at hl
      simp at hl
  · intro i hi hf
    exact absurd hf not_false

/-! ## The solver preserves the invariant -/

theorem placeBucket_good (hvs : List HashValue) (B T : Nat) (P : Nat → Prop)
    (st st' : SolveState) (b : Nat)
    (hT : 0 < T) (hbB : b < B) (hbP : ¬ P b)
    (hgood : Good hvs B T P st)
    (h : placeBucket hvs T st b (bucketMembers hvs B b) = some st') :
    Good hvs B T (fun x => P x ∨ x = b) st' := by
  unfold placeBucket at h
  split at h
  · exact absurd h (by simp)
  next d1 d2 hfind =>
    simp only [Option.some.injEq] at h
    have hok := List.find?_some hfind
    simp only [candOk, Bool.and_eq_true, List.all_eq_true] at hok
    have hfree : ∀ s ∈ bucketSlots hvs T d1 d2 (bucketMembers hvs B b),
        lookupSlot st.slots s = none := by
      intro s hsm
      have := hok.1 s hsm
      exact Option.isNone_iff_eq_none.1 this
    have hnd : (bucketSlots hvs T d1 d2 (bucketMembers hvs B b)).Nodup :=
      listDistinct_nodup _ hok.2
    set ms := bucketMembers hvs B b with hms
    set ps := ms.map (fun i => (i, memberSlot hvs T d1 d2 i)) with hps
    have hpssnd : ps.map Prod.snd = bucketSlots hvs T d1 d2 ms := by
      rw [hps]
      unfold bucketSlots
      rw [List.map_map]
      rfl
    have hndps : (ps.map Prod.snd).Nodup := by rw [hpssnd]; exact hnd
    have hpsmem : ∀ i s, (i, s) ∈ ps ↔ i ∈ ms ∧ s = memberSlot hvs T d1 d2 i := by
      intro i s
      rw [hps, List.mem_map]
      constructor
      · rintro ⟨j, hj, hje⟩
        injection hje with h1 h2
        subst h1
        exact ⟨hj, h2.symm⟩
      · rintro ⟨hi, rfl⟩
        exact ⟨i, hi, rfl⟩
    have hmmem : ∀ i, i ∈ ms ↔ i < hvs.length ∧ bucketOf hvs B i = b := by
      intro i; rw [hms]; exact mem_bucketMembers hvs B b i
    obtain rfl : st' = { slots := markSlots st.slots ps, disp := st.disp.set b (d1, d2) } := h.symm
    have hdisp_b : ((st.disp.set b (d1, d2))[b]?).getD (0, 0) = (d1, d2) := by
      rw [List.getElem?_set_self (by rw [hgood.dispLen]; exact hbB)]
      rfl
    have hdisp_ne : ∀ x, x ≠ b →
        ((st.disp.set b (d1, d2))[x]?).getD (0, 0) = (st.disp[x]?).getD (0, 0) := by
      intro x hx
      rw [List.getElem?_set_ne (fun hc => hx hc.symm)]
    have hslot_b : ∀ i, bucketOf hvs B i = b →
        slotIn hvs B T (st.disp.set b (d1, d2)) i = memberSlot hvs T d1 d2 i := by
      intro i hbi
      unfold slotIn
      rw [hbi, hdisp_b]
    have hslot_ne : ∀ i, bucketOf hvs B i ≠ b →
        slotIn hvs B T (st.disp.set b (d1, d2)) i = slotIn hvs B T st.disp i := by
      intro i hbi
      unfold slotIn
      rw [hdisp_ne _ hbi]
    have hmemslot_lt : ∀ i, memberSlot hvs T d1 d2 i < T := by
      intro i
      unfold memberSlot
      exact Nat.mod_lt _ hT
    refine ⟨?_, ?_, ?_, ?_⟩
    · show (markSlots st.slots ps).length = T
      rw [markSlots_length, hgood.slotsLen]
    · show (st.disp.set b (d1, d2)).length = B
      rw [List.length_set, hgood.dispLen]
    · intro s i hl
      by_cases hsym : s ∈ ps.map Prod.snd
      · rw [List.mem_map] at hsym
        obtain ⟨⟨j, s1⟩, hjs, hsnd⟩ := hsym
        have hs1 : s1 = s := hsnd
        subst hs1
        obtain ⟨hj, hjeq⟩ := (hpsmem j s1).1 hjs
        have hjlt := (hmmem j).1 hj
        have hlook : lookupSlot (markSlots st.slots ps) s1 = some j := by
          apply markSlots_lookup_mem _ _ _ _ hndps hjs
          rw [hgood.slotsLen, hjeq]
          exact hmemslot_lt j
        rw [hlook] at hl
        injection hl with hij
        subst hij
        refine ⟨hjlt.1, Or.inr hjlt.2, ?_⟩
        rw [hslot_b j hjlt.2, hjeq]
      · rw [markSlots_lookup_not_mem _ _ _ hsym] at hl
        obtain ⟨h1, h2, h3⟩ := hgood.sound s i hl
        have hne : bucketOf hvs B i ≠ b := fun hc => hbP (hc ▸ h2)
        exact ⟨h1, Or.inl h2, by rw [hslot_ne i hne]; exact h3⟩
    · intro i hi hP
      rcases hP with hP | hib
      · have hne : bucketOf hvs B i ≠ b := fun hc => hbP (hc ▸ hP)
        rw [hslot_ne i hne]
        have hold := hgood.complete i hi hP
        have hnotin : slotIn hvs B T st.disp i ∉ ps.map Prod.snd := by
          intro hin
          rw [hpssnd] at hin
          have := hfree _ hin
          rw [hold] at this
          exact Option.noConfusion this
        rw [markSlots_lookup_not_mem _ _ _ hnotin]
        exact hold
      · have himem : i ∈ ms := (hmmem i).2 ⟨hi, hib⟩
        have hpair : (i, memberSlot hvs T d1 d2 i) ∈ ps :=
          (hpsmem i (memberSlot hvs T d1 d2 i)).2 ⟨himem, rfl⟩
        rw [hslot_b i hib]
        apply markSlots_lookup_mem _ _ _ _ hndps hpair
        rw [hgood.slotsLen]
        exact hmemslot_lt i

theorem solveBuckets_good (hvs : List HashValue) (B T : Nat)
    (bs : List Nat) (P : Nat → Prop) (st st' : SolveState)
    (hT : 0 < T)
    (hnd : bs.Nodup) (hdisj : ∀ x ∈ bs, ¬ P x) (hlt : ∀ x ∈ bs, x < B)
    (hgood : Good hvs B T P st)
    (h : solveBuckets hvs B T bs st = some st') :
    Good hvs B T (fun x => P x ∨ x ∈ bs) st' := by
  induction bs generalizing P st with
  | nil =>
    unfold solveBuckets at h
    injection h with h
    subst h
    exact good_congr _ _ _ _ _ _ (fun x => by simp) hgood
  | cons b bs ih =>
    unfold solveBuckets at h
    split at h
    · exact absurd h (by simp)
    next st1 hplace =>
      rw [List.nodup_cons] at hnd
      have hstep : Good hvs B T (fun x => P x ∨ x = b) st1 :=
        placeBucket_good hvs B T P st st1 b hT
          (hlt b (List.mem_cons_self b bs)) (hdisj b (List.mem_cons_self b bs))
          hgood hplace
      have hrest : Good hvs B T (fun x => (P x ∨ x = b) ∨ x ∈ bs) st' := by
        apply ih _ _ hnd.2 _ _ hstep h
        · intro x hx
          rintro (hPx | rfl)
          · exact hdisj x (List.mem_cons_of_mem b hx) hPx
          · exact hnd.1 hx
        · intro x hx
          exact hlt x (List.mem_cons_of_mem b hx)
      apply good_congr _ _ _ _ _ _ _ hrest
      intro x
      rw [List.mem_cons]
      tauto

/-! ## The invariant holds for every successfully built container -/

theorem build_ok_good [DecidableEq κ] (hash : κ → Nat → HashValue)
    (maxAttempts seed : Nat) (entries : List (κ × ν)) (m : OrderedMap κ ν)
    (h : build hash maxAttempts seed entries = .ok m) :
    m.entries = entries ∧ 0 < m.B ∧ 0 < m.T ∧ m.slots.length = m.T ∧
    (∀ s i, lookupSlot m.slots s = some i → i < entries.length ∧
      slotIn (hvsOf hash m.seed entries) m.B m.T m.disp i = s) ∧
    (∀ i, i < entries.length →
      lookupSlot m.slots (slotIn (hvsOf hash m.seed entries) m.B m.T m.disp i)
        = some i) := by
  obtain ⟨-, s, st, hsolve, hm⟩ := build_ok hash maxAttempts seed entries m h
  have hB : 0 < bucketCount entries.length := bucketCount_pos _
  have hT : 0 < tableSize entries.length := tableSize_pos _
  have hgood : Good (hvsOf hash s entries) (bucketCount entries.length)
      (tableSize entries.length)
      (fun x => False ∨ x ∈ bucketOrder (hvsOf hash s entries) (bucketCount entries.length))
      st := by
    apply solveBuckets_good _ _ _ _ _ _ _ hT (bucketOrder_nodup _ _)
      (fun x _ hf => hf) _ (good_init _ _ _) hsolve
    intro x hx
    exact (mem_bucketOrder _ _ _).1 hx
  have hlen : (hvsOf hash s entries).length = entries.length := by
    unfold hvsOf
    exact List.length_map _ _
  have hPall : ∀ i, i < entries.length →
      (False ∨ bucketOf (hvsOf hash s entries) (bucketCount entries.length) i
        ∈ bucketOrder (hvsOf hash s entries) (bucketCount entries.length)) := by
    intro i hi
    right
    rw [mem_bucketOrder]
    unfold bucketOf
    exact Nat.mod_lt _ hB
  subst hm
  refine ⟨rfl, hB, hT, hgood.slotsLen, ?_, ?_⟩
  · intro s1 i hl
    obtain ⟨h1, -, h3⟩ := hgood.sound s1 i hl
    rw [hlen] at h1
    exact ⟨h1, h3⟩
  · intro i hi
    exact hgood.complete i (by rw [hlen]; exact hi) (hPall i hi)

theorem entryHV_eq (hash : κ → Nat → HashValue) (s : Nat)
    (entries : List (κ × ν)) (i : Nat) (k : κ) (v : ν)
    (hi : entries[i]? = some (k, v)) :
    entryHV (hvsOf hash s entries) i = hash k s := by
  unfold entryHV hvsOf
  rw [List.getElem?_map, hi]
  rfl

theorem slotFor_eq_slotIn (hash : κ → Nat → HashValue) (m : OrderedMap κ ν)
    (i : Nat) (k : κ) (v : ν) (hi : m.entries[i]? = some (k, v)) :
    m.slotFor hash k
      = slotIn (hvsOf hash m.seed m.entries) m.B m.T m.disp i := by
  have hhv := entryHV_eq hash m.seed m.entries i k v hi
  unfold OrderedMap.slotFor slotIn memberSlot bucketOf
  rw [hhv]

/-! ## Claim C1: lookup is totally correct -/

/-- **C1.** For every successfully built container: a query equal to some
input entry's key returns `some` of that entry's value, and a query equal to
no input key — however its hash fragments relate to present keys — returns
`none`; `get` is a total function into `Option`, so lookup never fails. -/
theorem build_get_correct [DecidableEq κ] (hash : κ → Nat → HashValue)
    (maxAttempts seed : Nat) (entries : List (κ × ν)) (m : OrderedMap κ ν)
    (h : build hash maxAttempts seed entries = .ok m) :
    (∀ k v, (k, v) ∈ entries → m.get hash k = some v) ∧
    (∀ k, k ∉ entries.map Prod.fst → m.get hash k = none) := by
  obtain ⟨hment, hB, hT, hslen, hsound, hcomplete⟩ :=
    build_ok_good hash maxAttempts seed entries m h
  constructor
  · intro k v hkv
    obtain ⟨i, hi⟩ := List.mem_iff_getElem?.1 hkv
    have hi' : m.entries[i]? = some (k, v) := by rw [hment]; exact hi
    have hilt : i < entries.length := by
      obtain ⟨hlt, -⟩ := List.getElem?_eq_some_iff.1 hi
      exact hlt
    unfold OrderedMap.get
    rw [slotFor_eq_slotIn hash m i k v hi', hment, hcomplete i hilt]
    simp [hi]
  · intro k hk
    unfold OrderedMap.get
    rcases hl : lookupSlot m.slots (m.slotFor hash k) with _ | i
    · rfl
    · obtain ⟨hilt, -⟩ := hsound _ i hl
      have hilt' : i < m.entries.length := by rw [hment]; exact hilt
      have hkm : (m.entries[i]).1 ∈ entries.map Prod.fst := by
        rw [← hment]
        exact List.mem_map_of_mem _ (List.getElem_mem _)
      rcases he : m.entries[i] with ⟨ki, vi⟩
      rw [he] at hkm
      have hne : ki ≠ k := fun hc => hk (hc ▸ hkm)
      dsimp only
      rw [List.getElem?_eq_getElem hilt', he]
      simp [hne]

/-- Witness for C1: on the concrete two-entry build, a present key returns
its value and an absent key (which collides into an occupied slot) returns
`none`. -/
theorem build_get_correct_witness :
    demoMap.get demoHash 1 = some 11 ∧ demoMap.get demoHash 3 = none :=
  ⟨(build_get_correct demoHash 1 0 demoEntries demoMap (by rfl)).1 1 11 (by decide),
   (build_get_correct demoHash 1 0 demoEntries demoMap (by rfl)).2 3 (by decide)⟩

/-! ## Claim C2: the slot assignment is injective -/

/-- **C2.** For every successfully built container, the final slots — each
computed by `displace` from the entry's hash fragments and its bucket's
displacement pair, reduced mod `T` — are pairwise distinct across distinct
entries. -/
theorem build_slots_injective [DecidableEq κ] (hash : κ → Nat → HashValue)
    (maxAttempts seed : Nat) (entries : List (κ × ν)) (m : OrderedMap κ ν)
    (h : build hash maxAttempts seed entries = .ok m)
    (i j : Nat) (ki kj : κ) (vi vj : ν)
    (hi : m.entries[i]? = some (ki, vi)) (hj : m.entries[j]? = some (kj, vj))
    (hij : i ≠ j) :
    m.slotFor hash ki ≠ m.slotFor hash kj := by
  obtain ⟨hment, hB, hT, hslen, hsound, hcomplete⟩ :=
    build_ok_good hash maxAttempts seed entries m h
  have hilt : i < entries.length := by
    obtain ⟨hlt, -⟩ := List.getElem?_eq_some_iff.1 hi
    rw [hment] at hlt
    exact hlt
  have hjlt : j < entries.length := by
    obtain ⟨hlt, -⟩ := List.getElem?_eq_some_iff.1 hj
    rw [hment] at hlt
    exact hlt
  rw [slotFor_eq_slotIn hash m i ki vi hi, slotFor_eq_slotIn hash m j kj vj hj,
    hment]
  intro hc
  have h1 := hcomplete i hilt
  have h2 := hcomplete j hjlt
  rw [hc] at h1
  rw [h1] at h2
  injection h2 with h2
  exact hij h2

/-- Witness for C2: in the concrete build, the two entries occupy distinct
slots. -/
theorem build_slots_injective_witness :
    demoMap.slotFor demoHash 1 ≠ demoMap.slotFor demoHash 2 :=
  build_slots_injective demoHash 1 0 demoEntries demoMap (by rfl) 0 1 1 2 11 22
    (by rfl) (by rfl) (by decide)

/-- Witness for C4: the concrete build applied twice yields identical
components. -/
theorem build_deterministic_witness :
    demoMap.B = demoMap.B ∧ demoMap.T = demoMap.T ∧
    demoMap.seed = demoMap.seed ∧
    bucketOrder (hvsOf demoHash demoMap.seed demoEntries) demoMap.B
      = bucketOrder (hvsOf demoHash demoMap.seed demoEntries) demoMap.B ∧
    demoMap.disp = demoMap.disp ∧ demoMap.slots = demoMap.slots ∧
    demoMap.entries = demoMap.entries :=
  build_deterministic demoHash 1 0 demoEntries demoMap demoMap (by rfl) (by rfl)

/-- Witness for C5: the concrete build iterates as its input list and has
its length. -/
theorem build_preserves_order_witness :
    demoMap.toList = demoEntries ∧ demoMap.length = demoEntries.length :=
  build_preserves_order demoHash 1 0 demoEntries demoMap (by rfl)

end Cphf
